import Mathlib

/-!
Shallow embedding of the E-inkAware firmware control core (src/main.ino)
and proofs of its specified properties.

The persistent note store (ESP32 Preferences/NVS) is modelled as a partial
map from integer slot index to stored text plus the persistent count field:
the firmware addresses slots through synthesized keys "note%d", which are in
bijection with the integer index, so the map is keyed by the index directly.
-/

namespace EInkAware

/-- Source: `const int MAX_NOTES = 16;` (main.ino line 72). -/
def MAX_NOTES : Int := 16

/-- Persistent storage state visible to the note-store operations: the
per-slot keys `note<i>` (absent key = `none`) and the `notes_cnt` field. -/
structure Store where
  notes : Int → Option String
  count : Int

/-- Fresh NVS namespace right after `initStorage()`: no note keys, count 0. -/
def emptyStore : Store := ⟨fun _ => none, 0⟩

/-- Source `loadNotesCount()` — `prefs.getInt(NOTES_COUNT_KEY, 0)`. -/
def loadNotesCount (s : Store) : Int := s.count

/-- Source `setNotesCount(n)` — `prefs.putInt(NOTES_COUNT_KEY, n)`. -/
def setNotesCount (s : Store) (n : Int) : Store := ⟨s.notes, n⟩

/-- Source `readNote(idx)` — `prefs.getString("note<idx>", "")`: stored text, or
empty string when the key is absent. -/
def readNote (s : Store) (idx : Int) : String := (s.notes idx).getD ""

/-- Source `saveNote(idx, text)` — `prefs.putString("note<idx>", text)`. -/
def saveNote (s : Store) (idx : Int) (text : String) : Store :=
  ⟨fun j => if j = idx then some text else s.notes j, s.count⟩

/-- Source operation `prefs.remove("note<idx>")`. -/
def removeKey (s : Store) (idx : Int) : Store :=
  ⟨fun j => if j = idx then none else s.notes j, s.count⟩

/-- Source `addNote(text)` (main.ino lines 320-330). -/
def addNote (s : Store) (text : String) : Store :=
  let n := loadNotesCount s
  if MAX_NOTES ≤ n then
    setNotesCount (saveNote s (MAX_NOTES - 1) text) MAX_NOTES
  else
    setNotesCount (saveNote s n text) (n + 1)

/-- The shift loop of `removeNote` — `for (int i = idx; i < n-1; ++i)
saveNote(i, readNote(i+1));` — unrolled on its iteration count `k`
(the C loop runs exactly `max 0 (n-1-idx)` iterations). -/
def shiftLoopN (s : Store) (i : Int) : Nat → Store
  | 0 => s
  | k + 1 => shiftLoopN (saveNote s i (readNote s (i + 1))) (i + 1) k

/-- Source `removeNote(idx)` (main.ino lines 332-340): early return when the index
is outside `[0, n)`; otherwise shift the later slots down, delete the key of
the vacated last slot, and decrement the count. -/
def removeNote (s : Store) (idx : Int) : Store :=
  let n := loadNotesCount s
  if idx < 0 ∨ n ≤ idx then s
  else setNotesCount (removeKey (shiftLoopN s idx (n - 1 - idx).toNat) (n - 1)) (n - 1)

/-- The deletion loop of the `CLEAR_NOTES` command — `for (int i = 0; i < n;
++i) prefs.remove(...)` — unrolled on its iteration count. -/
def clearLoopN (s : Store) (i : Int) : Nat → Store
  | 0 => s
  | k + 1 => clearLoopN (removeKey s i) (i + 1) k

/-- The `CLEAR_NOTES` branch of `TextCallback::onWrite` (main.ino lines
364-370): delete every note key `note0..note(n-1)` and set the count to 0. -/
def clearNotes (s : Store) : Store :=
  setNotesCount (clearLoopN s 0 (loadNotesCount s).toNat) 0

/-- The store operations reachable through the firmware: BLE note append
(`addNote`), note removal (`removeNote`), and `CLEAR_NOTES` (`clearNotes`). -/
inductive Op where
  | append (text : String)
  | remove (idx : Int)
  | clear

/-- Apply one store operation. -/
def applyOp (s : Store) : Op → Store
  | .append t => addNote s t
  | .remove i => removeNote s i
  | .clear => clearNotes s

/-- Apply a sequence of store operations in order. -/
def applyOps (s : Store) (ops : List Op) : Store := ops.foldl applyOp s

/-- Store invariant maintained by the firmware: the count stays in
`[0, MAX_NOTES]`, every slot outside `[0, count)` has no key, and every slot
inside `[0, count)` holds a stored string. -/
def Clean (s : Store) : Prop :=
  0 ≤ s.count ∧ s.count ≤ MAX_NOTES ∧
  (∀ i : Int, (i < 0 ∨ s.count ≤ i) → s.notes i = none) ∧
  (∀ i : Int, 0 ≤ i → i < s.count → (s.notes i).isSome = true)

@[simp] theorem setNotesCount_count (s : Store) (n : Int) : (setNotesCount s n).count = n := rfl

@[simp] theorem setNotesCount_notes (s : Store) (n : Int) : (setNotesCount s n).notes = s.notes := rfl

@[simp] theorem saveNote_count (s : Store) (i : Int) (t : String) : (saveNote s i t).count = s.count := rfl

@[simp] theorem removeKey_count (s : Store) (i : Int) : (removeKey s i).count = s.count := rfl

theorem saveNote_notes (s : Store) (i j : Int) (t : String) :
    (saveNote s i t).notes j = if j = i then some t else s.notes j := rfl

theorem removeKey_notes (s : Store) (i j : Int) :
    (removeKey s i).notes j = if j = i then none else s.notes j := rfl

theorem clean_emptyStore : Clean emptyStore := by
  refine ⟨le_refl 0, by norm_num [emptyStore, MAX_NOTES], fun i _ => rfl, fun i h1 h2 => ?_⟩
  simp [emptyStore] at h2
  omega

theorem clean_addNote {s : Store} (hs : Clean s) (t : String) : Clean (addNote s t) := by
  obtain ⟨h0, h1, hout, hin⟩ := hs
  simp only [MAX_NOTES] at h1 hout hin ⊢
  unfold Clean
  simp only [MAX_NOTES]
  by_cases hc : (16 : Int) ≤ s.count
  · have hceq : s.count = 16 := by omega
    simp only [addNote, loadNotesCount, MAX_NOTES, hc, if_pos,
      setNotesCount_notes, setNotesCount_count]
    refine ⟨by omega, by omega, fun i hi => ?_, fun i hi1 hi2 => ?_⟩
    · rw [saveNote_notes, if_neg (by omega)]
      exact hout i (by omega)
    · rw [saveNote_notes]
      by_cases he : i = 16 - 1
      · rw [if_pos he]; rfl
      · rw [if_neg he]; exact hin i hi1 (by omega)
  · simp only [addNote, loadNotesCount, MAX_NOTES, hc, if_neg, if_false,
      setNotesCount_notes, setNotesCount_count]
    push_neg at hc
    refine ⟨by omega, by omega, fun i hi => ?_, fun i hi1 hi2 => ?_⟩
    · rw [saveNote_notes, if_neg (by omega)]
      exact hout i (by omega)
    · rw [saveNote_notes]
      by_cases he : i = s.count
      · rw [if_pos he]; rfl
      · rw [if_neg he]; exact hin i hi1 (by omega)

/-- Closed form of the shift loop: slot `j` in `[i, i+k)` receives the
original content of slot `j+1`; every other slot is untouched. -/
theorem shiftLoopN_notes (k : Nat) : ∀ (s : Store) (i j : Int),
    (shiftLoopN s i k).notes j =
      if i ≤ j ∧ j < i + k then some (readNote s (j + 1)) else s.notes j := by
  induction k with
  | zero =>
    intro s i j
    simp only [shiftLoopN]
    rw [if_neg (by omega)]
  | succ k ih =>
    intro s i j
    simp only [shiftLoopN]
    rw [ih]
    by_cases hj : i + 1 ≤ j ∧ j < i + 1 + k
    · rw [if_pos hj, if_pos (by push_cast at hj ⊢; omega)]
      have hne : j + 1 ≠ i := by omega
      simp [readNote, saveNote, hne]
    · rw [if_neg hj]
      by_cases he : j = i
      · subst he
        have : j ≤ j ∧ j < j + (k + 1 : Nat) := by push_cast; omega
        rw [if_pos this]
        simp [saveNote]
      · rw [if_neg (by push_cast at hj ⊢; omega)]
        simp [saveNote, he]

theorem shiftLoopN_count (k : Nat) : ∀ (s : Store) (i : Int),
    (shiftLoopN s i k).count = s.count := by
  induction k with
  | zero => intro s i; rfl
  | succ k ih => intro s i; simp only [shiftLoopN]; rw [ih]; rfl

/-- Closed form of the clear loop: keys `i..i+k-1` are deleted. -/
theorem clearLoopN_notes (k : Nat) : ∀ (s : Store) (i j : Int),
    (clearLoopN s i k).notes j = if i ≤ j ∧ j < i + k then none else s.notes j := by
  induction k with
  | zero =>
    intro s i j
    simp only [clearLoopN]
    rw [if_neg (by omega)]
  | succ k ih =>
    intro s i j
    simp only [clearLoopN]
    rw [ih]
    by_cases hj : i + 1 ≤ j ∧ j < i + 1 + k
    · rw [if_pos hj, if_pos (by push_cast at hj ⊢; omega)]
    · rw [if_neg hj]
      by_cases he : j = i
      · subst he
        rw [if_pos (by push_cast; omega)]
        simp [removeKey]
      · rw [if_neg (by push_cast at hj ⊢; omega)]
        simp [removeKey, he]

theorem clearLoopN_count (k : Nat) : ∀ (s : Store) (i : Int),
    (clearLoopN s i k).count = s.count := by
  induction k with
  | zero => intro s i; rfl
  | succ k ih => intro s i; simp only [clearLoopN]; rw [ih]; rfl

/-- Calling `removeNote` at an out-of-range index is the early-return no-op. -/
theorem removeNote_noop {s : Store} {idx : Int} (h : idx < 0 ∨ s.count ≤ idx) :
    removeNote s idx = s := by
  unfold removeNote loadNotesCount
  rw [if_pos h]

theorem removeNote_count_valid {s : Store} {idx : Int} (h1 : 0 ≤ idx) (h2 : idx < s.count) :
    (removeNote s idx).count = s.count - 1 := by
  unfold removeNote loadNotesCount
  rw [if_neg (by omega)]
  simp

/-- Per-slot description of a valid removal: the vacated slot `count-1`
loses its key, slots `idx..count-2` take the prior content of their
successor, and every other slot is untouched. -/
theorem removeNote_notes_valid {s : Store} {idx : Int} (h1 : 0 ≤ idx) (h2 : idx < s.count)
    (j : Int) :
    (removeNote s idx).notes j =
      if j = s.count - 1 then none
      else if idx ≤ j ∧ j < s.count - 1 then some (readNote s (j + 1))
      else s.notes j := by
  unfold removeNote loadNotesCount
  rw [if_neg (by omega)]
  simp only [setNotesCount_notes]
  rw [removeKey_notes, shiftLoopN_notes]
  have hcast : ((s.count - 1 - idx).toNat : Int) = s.count - 1 - idx :=
    Int.toNat_of_nonneg (by omega)
  rw [hcast]
  by_cases hj : j = s.count - 1
  · rw [if_pos hj, if_pos hj]
  · rw [if_neg hj, if_neg hj]
    by_cases hr : idx ≤ j ∧ j < s.count - 1
    · rw [if_pos (by omega), if_pos hr]
    · rw [if_neg (by omega), if_neg hr]

theorem clean_removeNote {s : Store} (hs : Clean s) (idx : Int) : Clean (removeNote s idx) := by
  by_cases hv : idx < 0 ∨ s.count ≤ idx
  · rw [removeNote_noop hv]; exact hs
  · push_neg at hv
    obtain ⟨h0, h1, hout, hin⟩ := hs
    refine ⟨?_, ?_, fun i hi => ?_, fun i hi1 hi2 => ?_⟩
    · rw [removeNote_count_valid hv.1 hv.2]; omega
    · rw [removeNote_count_valid hv.1 hv.2]; simp only [MAX_NOTES] at h1 ⊢; omega
    · rw [removeNote_count_valid hv.1 hv.2] at hi
      rw [removeNote_notes_valid hv.1 hv.2]
      by_cases he : i = s.count - 1
      · rw [if_pos he]
      · rw [if_neg he, if_neg (by omega)]
        exact hout i (by omega)
    · rw [removeNote_count_valid hv.1 hv.2] at hi2
      rw [removeNote_notes_valid hv.1 hv.2, if_neg (by omega)]
      by_cases hr : idx ≤ i ∧ i < s.count - 1
      · rw [if_pos hr]; rfl
      · rw [if_neg hr]
        exact hin i hi1 (by omega)

theorem clean_clearNotes {s : Store} (hs : Clean s) : Clean (clearNotes s) := by
  obtain ⟨h0, h1, hout, hin⟩ := hs
  have hcast : ((loadNotesCount s).toNat : Int) = s.count := Int.toNat_of_nonneg h0
  refine ⟨by simp [clearNotes], by simp [clearNotes, MAX_NOTES], fun i hi => ?_,
    fun i hi1 hi2 => ?_⟩
  · simp only [clearNotes, setNotesCount_notes]
    rw [clearLoopN_notes, hcast]
    by_cases hr : 0 ≤ i ∧ i < 0 + s.count
    · rw [if_pos (by omega)]
    · rw [if_neg (by omega)]
      exact hout i (by omega)
  · simp only [clearNotes, setNotesCount_count] at hi2
    omega

theorem clean_applyOp {s : Store} (hs : Clean s) (op : Op) : Clean (applyOp s op) := by
  cases op with
  | append t => exact clean_addNote hs t
  | remove i => exact clean_removeNote hs i
  | clear => exact clean_clearNotes hs

theorem clean_applyOps (ops : List Op) : ∀ (s : Store), Clean s → Clean (applyOps s ops) := by
  induction ops with
  | nil => intro s hs; exact hs
  | cons op rest ih =>
    intro s hs
    simp only [applyOps, List.foldl_cons] at ih ⊢
    exact ih (applyOp s op) (clean_applyOp hs op)

theorem addNote_low {s : Store} (h : s.count < MAX_NOTES) (t : String) :
    (addNote s t).count = s.count + 1 ∧ readNote (addNote s t) s.count = t := by
  unfold addNote loadNotesCount
  rw [if_neg (by omega)]
  refine ⟨by simp, ?_⟩
  simp [readNote, saveNote_notes]

theorem addNote_high {s : Store} (h : MAX_NOTES ≤ s.count) (t : String) :
    (addNote s t).count = MAX_NOTES ∧ readNote (addNote s t) (MAX_NOTES - 1) = t := by
  unfold addNote loadNotesCount
  rw [if_pos h]
  refine ⟨by simp, ?_⟩
  simp [readNote, saveNote_notes]

theorem foldl_addNote_count (ts : List String) : ∀ s : Store,
    0 ≤ s.count → s.count ≤ MAX_NOTES →
    (ts.foldl addNote s).count = min (s.count + (ts.length : Int)) MAX_NOTES := by
  induction ts with
  | nil =>
    intro s h0 h1
    simp only [List.foldl_nil, List.length_nil, Int.ofNat_zero, add_zero]
    simp only [MAX_NOTES] at h1 ⊢
    omega
  | cons t rest ih =>
    intro s h0 h1
    simp only [List.foldl_cons, List.length_cons]
    simp only [MAX_NOTES] at h1 ih ⊢
    by_cases hc : (16 : Int) ≤ s.count
    · have hcnt : (addNote s t).count = 16 := by
        have := (addNote_high (by simpa [MAX_NOTES] using hc) t).1
        simpa [MAX_NOTES] using this
      rw [ih (addNote s t) (by omega) (by omega)]
      rw [hcnt]
      push_cast
      omega
    · have hcnt : (addNote s t).count = s.count + 1 :=
        (addNote_low (by simp [MAX_NOTES]; omega) t).1
      rw [ih (addNote s t) (by omega) (by omega)]
      rw [hcnt]
      push_cast
      omega

/-- C1 (append overwrite law): `append` below capacity stores at slot
`count` and increments the count; at capacity it overwrites slot
`MAX_NOTES-1` and leaves the count at `MAX_NOTES`; and after `MAX_NOTES+1`
appends from the empty store the count is `MAX_NOTES` and slot
`MAX_NOTES-1` holds the text of the last append. -/
theorem addNote_spec (s : Store) (t : String) :
    (s.count < MAX_NOTES →
      (addNote s t).count = s.count + 1 ∧ readNote (addNote s t) s.count = t) ∧
    (s.count = MAX_NOTES →
      (addNote s t).count = MAX_NOTES ∧ readNote (addNote s t) (MAX_NOTES - 1) = t) ∧
    (∀ ts : List String, (ts.length : Int) = MAX_NOTES →
      ((ts ++ [t]).foldl addNote emptyStore).count = MAX_NOTES ∧
      readNote ((ts ++ [t]).foldl addNote emptyStore) (MAX_NOTES - 1) = t) := by
  refine ⟨fun h => addNote_low h t, fun h => addNote_high (le_of_eq h.symm) t, ?_⟩
  intro ts hlen
  rw [List.foldl_append, List.foldl_cons, List.foldl_nil]
  have hmid : (ts.foldl addNote emptyStore).count = MAX_NOTES := by
    rw [foldl_addNote_count ts emptyStore (by simp [emptyStore]) (by simp [emptyStore, MAX_NOTES])]
    simp only [emptyStore, hlen, MAX_NOTES]
    omega
  exact addNote_high (le_of_eq hmid.symm) t

/-- Witness for C1 at concrete inputs: one append to the empty store, and
seventeen appends (16 copies of "x" then "y") ending with slot 15 = "y". -/
theorem addNote_spec_witness :
    (addNote emptyStore "a").count = emptyStore.count + 1 ∧
    readNote (addNote emptyStore "a") emptyStore.count = "a" ∧
    ((List.replicate 16 "x" ++ ["y"]).foldl addNote emptyStore).count = MAX_NOTES ∧
    readNote ((List.replicate 16 "x" ++ ["y"]).foldl addNote emptyStore) (MAX_NOTES - 1) = "y" := by
  have h1 := (addNote_spec emptyStore "a").1 (by decide)
  have h2 := (addNote_spec emptyStore "y").2.2 (List.replicate 16 "x") (by decide)
  exact ⟨h1.1, h1.2, h2.1, h2.2⟩

/-- C2 (remove contract): for an index in `[0, count)`, `removeNote` shifts
every note with a larger index down one slot and decrements the count, and
on the stores the firmware can produce (the `Clean` invariant) an immediate
read of the removed index returns what was previously at the next index;
for an index outside `[0, count)` it is a no-op returning the store
unchanged. -/
theorem removeNote_spec (s : Store) (i : Int) :
    (0 ≤ i → i < s.count →
      (removeNote s i).count = s.count - 1 ∧
      (∀ j : Int, i ≤ j → j < s.count - 1 →
        readNote (removeNote s i) j = readNote s (j + 1)) ∧
      (Clean s → readNote (removeNote s i) i = readNote s (i + 1))) ∧
    ((i < 0 ∨ s.count ≤ i) → removeNote s i = s) := by
  refine ⟨fun h1 h2 => ⟨removeNote_count_valid h1 h2, fun j hj1 hj2 => ?_, fun hc => ?_⟩,
    removeNote_noop⟩
  · simp only [readNote]
    rw [removeNote_notes_valid h1 h2, if_neg (by omega), if_pos ⟨hj1, hj2⟩]
    rfl
  · by_cases hl : i < s.count - 1
    · simp only [readNote]
      rw [removeNote_notes_valid h1 h2, if_neg (by omega), if_pos ⟨le_refl i, hl⟩]
      rfl
    · have hce : i = s.count - 1 := by omega
      simp only [readNote]
      rw [removeNote_notes_valid h1 h2, if_pos hce]
      rw [hc.2.2.1 (i + 1) (by omega)]

/-- Witness for C2 on the concrete two-note store `["a", "b"]`: removing
index 0 shifts "b" into slot 0 and decrements the count, and removing
index 5 is a no-op. -/
theorem removeNote_spec_witness :
    (removeNote (addNote (addNote emptyStore "a") "b") 0).count =
      (addNote (addNote emptyStore "a") "b").count - 1 ∧
    readNote (removeNote (addNote (addNote emptyStore "a") "b") 0) 0 = "b" ∧
    removeNote (addNote (addNote emptyStore "a") "b") 5 =
      addNote (addNote emptyStore "a") "b" := by
  have h := removeNote_spec (addNote (addNote emptyStore "a") "b") 0
  have hv := h.1 (by decide) (by decide)
  refine ⟨hv.1, ?_, (removeNote_spec (addNote (addNote emptyStore "a") "b") 5).2 (by decide)⟩
  have hs := hv.2.1 0 (by decide) (by decide)
  rw [hs]
  decide

/-- C9 (read total degrade): on every store the firmware can reach from the
empty store, reading any index outside `[0, count)` — negative included —
returns the empty string (the operation is total, it cannot fail), and
reading an index inside `[0, count)` returns exactly the stored text. -/
theorem readNote_total_degrade (ops : List Op) (i : Int) :
    ((i < 0 ∨ (applyOps emptyStore ops).count ≤ i) →
      readNote (applyOps emptyStore ops) i = "") ∧
    (0 ≤ i → i < (applyOps emptyStore ops).count →
      ∃ t, (applyOps emptyStore ops).notes i = some t ∧
        readNote (applyOps emptyStore ops) i = t) := by
  have hc := clean_applyOps ops emptyStore clean_emptyStore
  refine ⟨fun h => ?_, fun hi1 hi2 => ?_⟩
  · simp [readNote, hc.2.2.1 i h]
  · obtain ⟨t, ht⟩ := Option.isSome_iff_exists.mp (hc.2.2.2 i hi1 hi2)
    exact ⟨t, ht, by simp [readNote, ht]⟩

/-- Witness for C9 after a single append: index -3 and index 1 read back
empty, index 0 reads back the stored text. -/
theorem readNote_total_degrade_witness :
    readNote (applyOps emptyStore [Op.append "hi"]) (-3) = "" ∧
    readNote (applyOps emptyStore [Op.append "hi"]) 1 = "" ∧
    readNote (applyOps emptyStore [Op.append "hi"]) 0 = "hi" := by
  refine ⟨(readNote_total_degrade [Op.append "hi"] (-3)).1 (by decide),
    (readNote_total_degrade [Op.append "hi"] 1).1 (by decide), ?_⟩
  obtain ⟨t, h1, h2⟩ := (readNote_total_degrade [Op.append "hi"] 0).2 (by decide) (by decide)
  have h3 : (applyOps emptyStore [Op.append "hi"]).notes 0 = some "hi" := by decide
  rw [h1] at h3
  injection h3 with h4
  exact h2.trans h4

/-- C10 (store cleanliness): after any sequence of append, remove and
clear-all operations starting from the empty store, every slot index at or
beyond `count` reads back as empty text — `removeNote` deletes the vacated
key and `CLEAR_NOTES` deletes every key, so no stale content is observable
through `readNote`. -/
theorem store_clean_invariant (ops : List Op) (i : Int) :
    (applyOps emptyStore ops).count ≤ i → readNote (applyOps emptyStore ops) i = "" := by
  intro h
  have hc := clean_applyOps ops emptyStore clean_emptyStore
  simp [readNote, hc.2.2.1 i (Or.inr h)]

/-- Witness for C10: append then remove leaves the vacated slot 0 reading
back empty. -/
theorem store_clean_invariant_witness :
    readNote (applyOps emptyStore [Op.append "a", Op.remove 0]) 0 = "" :=
  store_clean_invariant [Op.append "a", Op.remove 0] 0 (by decide)

/-- Device state touched by the BLE text characteristic callback: the note
store, the wireless-channel flag, the system clock and the activity clock.
(The renders the callback requests are display side effects with no state.) -/
structure Dev where
  store : Store
  bleEnabled : Bool
  clockEpoch : Int
  lastActivityMs : Nat

/-- The `String v = String(s.c_str())` conversion (main.ino line 347): the
Arduino `String(const char*)` constructor copies the C string returned by
`std::string::c_str()`, i.e. the bytes of `s` up to but excluding the first
NUL byte. -/
def truncAtNul (s : String) : String :=
  String.mk (s.data.takeWhile (fun c => c ≠ Char.ofNat 0))

/-- Arduino `String::startsWith`: byte-prefix test, modelled as a character
prefix test on the string contents. -/
def prefixMatch (s p : String) : Bool := p.data.isPrefixOf s.data

/-- Digit-accumulation loop of `String::toInt`. -/
def parseDigits : List Char → Int → Int
  | [], acc => acc
  | c :: rest, acc =>
    if c.isDigit then parseDigits rest (acc * 10 + ((c.toNat : Int) - 48)) else acc

/-- Arduino `String::toInt` (`strtol` base 10): optional sign then leading
digits, 0 when nothing parses. Leading-whitespace skipping and 32-bit
clamping are omitted; no claim exercises the parsed value. -/
def arduinoToInt (s : String) : Int :=
  match s.data with
  | '-' :: rest => - parseDigits rest 0
  | '+' :: rest => parseDigits rest 0
  | cs => parseDigits cs 0

/-- Source `TextCallback::onWrite` (main.ino lines 344-385): ignore empty writes;
convert the byte string through `c_str()` (NUL truncation); then first
match wins among `NOTE:` prefix, `TIME:` prefix, exact `CLEAR_NOTES`,
exact `BLE:OFF`, with everything else appended whole as a note; every
non-empty write resets the activity clock. -/
def onWrite (d : Dev) (s : String) (now : Nat) : Dev :=
  if s.length = 0 then d
  else
    let v := truncAtNul s
    let d1 :=
      if prefixMatch v "NOTE:" then { d with store := addNote d.store (v.drop 5) }
      else if prefixMatch v "TIME:" then { d with clockEpoch := arduinoToInt (v.drop 5) }
      else if v = "CLEAR_NOTES" then { d with store := clearNotes d.store }
      else if v = "BLE:OFF" then
        (if d.bleEnabled then { d with bleEnabled := false } else d)
      else { d with store := addNote d.store v }
    { d1 with lastActivityMs := now }

/-- Boot device state: fresh store, BLE off (the boot default). -/
def dev0 : Dev := ⟨emptyStore, false, 0, 0⟩

theorem string_length_ne_zero {s : String} (h : s ≠ "") : s.length ≠ 0 := by
  cases s with
  | mk data =>
    cases data with
    | nil => exact absurd rfl h
    | cons c cs => simp [String.length]

/-- Counterexample to C3 as stated: the inbound byte string consisting of a
NUL byte followed by "A" is non-empty and matches none of the recognized
patterns, yet the note actually appended is the empty string, not the
inbound string in its entirety — `String(s.c_str())` truncates the write at
its first NUL byte before command interpretation. -/
theorem onWrite_nul_counterexample :
    "\u0000A" ≠ "" ∧
    prefixMatch "\u0000A" "NOTE:" = false ∧
    prefixMatch "\u0000A" "TIME:" = false ∧
    "\u0000A" ≠ "CLEAR_NOTES" ∧
    "\u0000A" ≠ "BLE:OFF" ∧
    (onWrite dev0 "\u0000A" 0).store.count = 1 ∧
    readNote (onWrite dev0 "\u0000A" 0).store 0 = "" ∧
    ("" : String) ≠ "\u0000A" := by
  decide

/-- C3 amended: for every non-empty inbound command string, the effective
command is the string truncated at its first NUL byte (a NUL-free string —
every string of ordinary text — is left intact by the truncation); if the
effective command starts with "NOTE:" the appended note is exactly the
characters after the colon, and an effective command matching none of the
recognized patterns is appended in its entirety; empty strings have no
effect. -/
theorem onWrite_amended_spec (d : Dev) (s : String) (now : Nat) :
    (s = "" → onWrite d s now = d) ∧
    ((∀ c ∈ s.data, c ≠ Char.ofNat 0) → truncAtNul s = s) ∧
    (s ≠ "" → prefixMatch (truncAtNul s) "NOTE:" = true →
      (onWrite d s now).store = addNote d.store ((truncAtNul s).drop 5)) ∧
    (s ≠ "" → prefixMatch (truncAtNul s) "NOTE:" = false →
      prefixMatch (truncAtNul s) "TIME:" = false →
      truncAtNul s ≠ "CLEAR_NOTES" → truncAtNul s ≠ "BLE:OFF" →
      (onWrite d s now).store = addNote d.store (truncAtNul s)) := by
  refine ⟨fun h => by subst h; rfl, fun h => ?_, fun hne h1 => ?_, fun hne h1 h2 h3 h4 => ?_⟩
  · unfold truncAtNul
    rw [List.takeWhile_eq_self_iff.mpr (by intro c hc; simpa using h c hc)]
  · simp only [onWrite]
    rw [if_neg (string_length_ne_zero hne)]
    simp only [h1, if_true]
  · simp only [onWrite]
    rw [if_neg (string_length_ne_zero hne)]
    simp only [h1, h2, if_false, Bool.false_eq_true, if_neg h3, if_neg h4]

/-- Witness for C3 amended: "NOTE:Buy milk" appends exactly "Buy milk", an
unrecognized plain string "hello" is appended whole, and the empty write is
a no-op. -/
theorem onWrite_amended_spec_witness :
    readNote ((onWrite dev0 "NOTE:Buy milk" 3).store) 0 = "Buy milk" ∧
    onWrite dev0 "" 3 = dev0 ∧
    readNote ((onWrite dev0 "hello" 3).store) 0 = "hello" := by
  refine ⟨?_, (onWrite_amended_spec dev0 "" 3).1 rfl, ?_⟩
  · have h := (onWrite_amended_spec dev0 "NOTE:Buy milk" 3).2.2.1 (by decide) (by decide)
    rw [h]
    decide
  · have h := (onWrite_amended_spec dev0 "hello" 3).2.2.2 (by decide) (by decide) (by decide)
      (by decide) (by decide)
    rw [h]
    decide

/-- Value `2^32`: the firmware's `unsigned long` (uint32) arithmetic modulus. -/
def U32 : Nat := 4294967296

/-- uint32 subtraction `a - b` as used on `millis()` timestamps. -/
def wsub (a b : Nat) : Nat := (a % U32 + (U32 - b % U32)) % U32

/-- Source: `const uint32_t INACTIVITY_MIN = 30;` (main.ino line 57). -/
def INACTIVITY_MIN : Nat := 30

/-- The sleep threshold `INACTIVITY_MIN * 60UL * 1000UL` (main.ino line 620). -/
def INACTIVITY_THRESHOLD_MS : Nat := INACTIVITY_MIN * 60 * 1000

/-- Source: `const unsigned long BLE_ENABLE_TIMEOUT_MS = 2*60*1000UL;` (line 80). -/
def BLE_ENABLE_TIMEOUT_MS : Nat := 2 * 60 * 1000

/-- The sleep decision of `loop()` (main.ino lines 617-626): only with BLE
disabled, and only when the idle time (uint32 difference of `millis()` and
`lastActivityMs`) strictly exceeds the inactivity threshold. -/
def sleepTriggered (bleEnabled : Bool) (now last : Nat) : Bool :=
  if bleEnabled = false then
    (if wsub now last > INACTIVITY_THRESHOLD_MS then true else false)
  else false

/-- The tail of one `loop()` iteration relevant to the power lifecycle: the
BLE auto-timeout (lines 599-604) followed by the sleep decision (lines
617-626). Returns the BLE flag in force at the sleep decision and whether
`goToDeepSleep()` is reached. -/
def powerStep (bleEnabled : Bool) (bleEnableTs lastActivityMs now : Nat) : Bool × Bool :=
  let ble2 :=
    if bleEnabled = true ∧ wsub now bleEnableTs > BLE_ENABLE_TIMEOUT_MS then false
    else bleEnabled
  (ble2, sleepTriggered ble2 now lastActivityMs)

theorem wsub_add (last k : Nat) (hk : k < U32) : wsub (last + k) last = k := by
  simp only [wsub, U32] at hk ⊢
  omega

theorem sleepTriggered_of_enabled (now last : Nat) : sleepTriggered true now last = false := by
  unfold sleepTriggered
  rw [if_neg (by simp)]

/-- Counterexample to C4 as stated: with BLE disabled and the idle duration
exactly equal to the configured threshold (1,800,000 ms), the code does NOT
trigger sleep — the comparison on line 620 is strict (`idleMs > threshold`),
so the claim's "at exactly the threshold it must trigger" is false. -/
theorem sleep_threshold_counterexample :
    wsub 1800000 0 = INACTIVITY_THRESHOLD_MS ∧
    sleepTriggered false 1800000 0 = false := by
  decide

/-- C4 amended: with the wireless channel disabled, an idle duration of
threshold − 1 does not trigger sleep, an idle duration of exactly the
threshold still does not trigger sleep, and sleep triggers once the idle
duration strictly exceeds the threshold (threshold + 1). -/
theorem sleep_boundary_amended (last : Nat) :
    sleepTriggered false (last + (INACTIVITY_THRESHOLD_MS - 1)) last = false ∧
    sleepTriggered false (last + INACTIVITY_THRESHOLD_MS) last = false ∧
    sleepTriggered false (last + (INACTIVITY_THRESHOLD_MS + 1)) last = true := by
  refine ⟨?_, ?_, ?_⟩
  · unfold sleepTriggered
    rw [if_pos rfl, if_neg (by rw [wsub_add last _ (by decide)]; decide)]
  · unfold sleepTriggered
    rw [if_pos rfl, if_neg (by rw [wsub_add last _ (by decide)]; decide)]
  · unfold sleepTriggered
    rw [if_pos rfl, if_pos (by rw [wsub_add last _ (by decide)]; decide)]

/-- C5: on any main-loop iteration, if the wireless channel is (still)
enabled when the sleep decision runs, sleep is not entered — for every
possible idle duration. The sleep check sits under `if (!bleEnabled)`. -/
theorem no_sleep_while_ble_enabled (ble : Bool) (bleTs last now : Nat)
    (h : (powerStep ble bleTs last now).1 = true) :
    (powerStep ble bleTs last now).2 = false := by
  have hr : (powerStep ble bleTs last now).2 =
      sleepTriggered (powerStep ble bleTs last now).1 now last := rfl
  rw [hr, h, sleepTriggered_of_enabled]

/-- Witness for C5: BLE freshly re-armed, idle duration far beyond the
sleep threshold — sleep still not entered. -/
theorem no_sleep_while_ble_enabled_witness :
    (powerStep true 3999999990 0 4000000000).1 = true ∧
    (powerStep true 3999999990 0 4000000000).2 = false :=
  ⟨by decide, no_sleep_while_ble_enabled true 3999999990 0 4000000000 (by decide)⟩

/-- The quadrature sampling step of `loop()` (main.ino lines 522-535), run
when the ISR has flagged a change: compare the sampled (A,B) pair with the
remembered pair; on any difference, increment the position when A == B and
decrement it otherwise, then remember the new pair. -/
def decodeStep (lastA lastB a b : Bool) : (Bool × Bool) × Int :=
  if a ≠ lastA ∨ b ≠ lastB then ((a, b), if a = b then 1 else -1)
  else ((lastA, lastB), 0)

/-- Feed a sequence of sampled (A,B) pairs through `decodeStep`, returning
the final remembered pair and the net position delta. -/
def decodeRun (st : Bool × Bool) : List (Bool × Bool) → (Bool × Bool) × Int
  | [] => (st, 0)
  | p :: ps =>
    let r := decodeStep st.1 st.2 p.1 p.2
    let rest := decodeRun r.1 ps
    (rest.1, r.2 + rest.2)

/-- C6 evaluation at the claimed input: feeding the full quadrature cycle
`(0,0)->(1,0)->(1,1)->(0,1)->(0,0)` yields a net delta of +1 from the boot
state (`lastA = lastB = HIGH`) and 0 when starting from the remembered pair
(0,0) — never ±4. The decoder tests only `a == b` on the new sample and
ignores the phase relationship with the previous pair, so opposite-phase
transitions of a rotation cancel instead of accumulating. -/
theorem quadrature_cycle_eval :
    (decodeRun (true, true)
      [(false, false), (true, false), (true, true), (false, true), (false, false)]).2 = 1 ∧
    (decodeRun (false, false)
      [(true, false), (true, true), (false, true), (false, false)]).2 = 0 := by
  decide

/-- Source: `const int NUM_PAGES = 4;` — 0:Dashboard, 1:NotesList, 2:NoteView,
3:System (main.ino line 84). -/
def NUM_PAGES : Int := 4

/-- The loop state driving encoder navigation: the remembered (A,B) pair
(`lastA`/`lastB`, boot value HIGH), the shared position counter
`encoderPos`, its last observed snapshot `lastEncoderPos`, and
`currentPage`. (The activity-clock update and the render calls of this code
are side effects with no bearing on the navigation state.) -/
structure NavState where
  lastA : Bool
  lastB : Bool
  encoderPos : Int
  lastEncoderPos : Int
  currentPage : Int

/-- The encoder-sampling fragment of `loop()` (main.ino lines 521-535),
`moved` being the ISR flag value consumed this iteration. -/
def encoderDecode (st : NavState) (moved a b : Bool) : NavState :=
  if moved then
    (if a ≠ st.lastA ∨ b ≠ st.lastB then
      { st with
        lastA := a, lastB := b,
        encoderPos := st.encoderPos + (if a = b then 1 else -1) }
    else st)
  else st

/-- The page-change fragment of `loop()` (main.ino lines 538-555): one
cyclic page step per observed change of `encoderPos`, then re-sync the
snapshot. -/
def pageUpdate (st : NavState) : NavState :=
  if st.encoderPos ≠ st.lastEncoderPos then
    { st with
      currentPage :=
        if st.encoderPos > st.lastEncoderPos then (st.currentPage + 1) % NUM_PAGES
        else (st.currentPage - 1 + NUM_PAGES) % NUM_PAGES,
      lastEncoderPos := st.encoderPos }
  else st

/-- One `loop()` iteration restricted to encoder navigation: sampling, then
page change. -/
def navStep (st : NavState) (moved a b : Bool) : NavState := pageUpdate (encoderDecode st moved a b)

theorem pageUpdate_gt {st : NavState} (h : st.encoderPos > st.lastEncoderPos) :
    pageUpdate st =
      { st with
          currentPage := (st.currentPage + 1) % NUM_PAGES,
          lastEncoderPos := st.encoderPos } := by
  unfold pageUpdate
  rw [if_pos (by omega), if_pos h]

theorem pageUpdate_lt {st : NavState} (h : st.encoderPos < st.lastEncoderPos) :
    pageUpdate st =
      { st with
          currentPage := (st.currentPage - 1 + NUM_PAGES) % NUM_PAGES,
          lastEncoderPos := st.encoderPos } := by
  unfold pageUpdate
  rw [if_pos (by omega), if_neg (by omega)]

theorem pageUpdate_eq {st : NavState} (h : st.encoderPos = st.lastEncoderPos) :
    pageUpdate st = st := by
  unfold pageUpdate
  rw [if_neg (by omega)]

theorem encoderDecode_changed {st : NavState} {a b : Bool}
    (hch : a ≠ st.lastA ∨ b ≠ st.lastB) :
    encoderDecode st true a b =
      { st with
          lastA := a,
          lastB := b,
          encoderPos := st.encoderPos + (if a = b then 1 else -1) } := by
  unfold encoderDecode
  rw [if_pos rfl, if_pos hch]

theorem encoderDecode_same {st : NavState} {a b : Bool}
    (hch : ¬(a ≠ st.lastA ∨ b ≠ st.lastB)) :
    encoderDecode st true a b = st := by
  unfold encoderDecode
  rw [if_pos rfl, if_neg hch]

theorem encoderDecode_idle (st : NavState) (a b : Bool) :
    encoderDecode st false a b = st := by
  unfold encoderDecode
  rw [if_neg (by simp)]

/-- C7 (navigation step mapping): from any loop state whose snapshot is in
sync (which holds after every iteration, and at boot where both are 0), one
iteration changes the position by at most one; an observed increment makes
exactly one forward cyclic step through the four pages, an observed
decrement exactly one backward step, and no observed change leaves the page
alone — so an observed change of magnitude k yields exactly k page steps. -/
theorem nav_step_law (st : NavState) (moved a b : Bool)
    (hsync : st.encoderPos = st.lastEncoderPos) :
    (navStep st moved a b).encoderPos = (navStep st moved a b).lastEncoderPos ∧
    ((navStep st moved a b).encoderPos = st.encoderPos + 1 →
      (navStep st moved a b).currentPage = (st.currentPage + 1) % NUM_PAGES) ∧
    ((navStep st moved a b).encoderPos = st.encoderPos - 1 →
      (navStep st moved a b).currentPage = (st.currentPage - 1 + NUM_PAGES) % NUM_PAGES) ∧
    ((navStep st moved a b).encoderPos = st.encoderPos →
      (navStep st moved a b).currentPage = st.currentPage) ∧
    ((navStep st moved a b).encoderPos = st.encoderPos + 1 ∨
     (navStep st moved a b).encoderPos = st.encoderPos ∨
     (navStep st moved a b).encoderPos = st.encoderPos - 1) := by
  cases moved with
  | false =>
    have he : navStep st false a b = st := by
      unfold navStep
      rw [encoderDecode_idle]
      exact pageUpdate_eq hsync
    rw [he]
    exact ⟨hsync,
      fun hc => absurd hc (by omega),
      fun hc => absurd hc (by omega),
      fun _ => rfl,
      Or.inr (Or.inl rfl)⟩
  | true =>
    by_cases hch : a ≠ st.lastA ∨ b ≠ st.lastB
    · by_cases hab : a = b
      · have he : navStep st true a b =
            { st with
                lastA := a,
                lastB := b,
                encoderPos := st.encoderPos + 1,
                lastEncoderPos := st.encoderPos + 1,
                currentPage := (st.currentPage + 1) % NUM_PAGES } := by
          unfold navStep
          rw [encoderDecode_changed hch, if_pos hab,
            pageUpdate_gt (by show st.encoderPos + 1 > st.lastEncoderPos; omega)]
        rw [he]
        exact ⟨rfl, fun _ => rfl,
          fun hc => absurd (show st.encoderPos + 1 = st.encoderPos - 1 from hc) (by omega),
          fun hc => absurd (show st.encoderPos + 1 = st.encoderPos from hc) (by omega),
          Or.inl rfl⟩
      · have he : navStep st true a b =
            { st with
                lastA := a,
                lastB := b,
                encoderPos := st.encoderPos + -1,
                lastEncoderPos := st.encoderPos + -1,
                currentPage := (st.currentPage - 1 + NUM_PAGES) % NUM_PAGES } := by
          unfold navStep
          rw [encoderDecode_changed hch, if_neg hab,
            pageUpdate_lt (by show st.encoderPos + -1 < st.lastEncoderPos; omega)]
        rw [he]
        exact ⟨rfl,
          fun hc => absurd (show st.encoderPos + -1 = st.encoderPos + 1 from hc) (by omega),
          fun _ => rfl,
          fun hc => absurd (show st.encoderPos + -1 = st.encoderPos from hc) (by omega),
          Or.inr (Or.inr (by show st.encoderPos + -1 = st.encoderPos - 1; omega))⟩
    · have he : navStep st true a b = st := by
        unfold navStep
        rw [encoderDecode_same hch]
        exact pageUpdate_eq hsync
      rw [he]
      exact ⟨hsync,
        fun hc => absurd hc (by omega),
        fun hc => absurd hc (by omega),
        fun _ => rfl,
        Or.inr (Or.inl rfl)⟩

/-- Witness for C7 at a concrete synced boot state: one sampled transition
to (0,0) increments the position and advances Dashboard to NotesList. -/
theorem nav_step_law_witness :
    (navStep ⟨true, true, 0, 0, 0⟩ true false false).currentPage = (0 + 1) % NUM_PAGES ∧
    (navStep ⟨true, true, 0, 0, 0⟩ true false false).encoderPos =
      (navStep ⟨true, true, 0, 0, 0⟩ true false false).lastEncoderPos :=
  ⟨(nav_step_law ⟨true, true, 0, 0, 0⟩ true false false rfl).2.1 (by decide),
   (nav_step_law ⟨true, true, 0, 0, 0⟩ true false false rfl).1⟩

/-- Classification of a completed button press (main.ino lines 568, 585). -/
inductive Press where
  | short
  | long
deriving DecidableEq

/-- The button edge state of `loop()` (`btnDown`, `btnDownTs`, lines
558-559). -/
structure BtnState where
  btnDown : Bool
  btnDownTs : Nat
deriving DecidableEq

/-- The button handling fragment of one `loop()` iteration (main.ino lines
557-597): `level` is the sampled pin level (false = LOW = pressed). The
Up -> Down edge records the press start; the Down -> Up edge computes the
held duration in uint32 arithmetic and classifies it as short (< 800 ms)
or long (>= 800 ms). The page/BLE/light side effects consuming the
classified event are not part of the classification. -/
def buttonStep (st : BtnState) (level : Bool) (now : Nat) : BtnState × Option Press :=
  if level = false ∧ st.btnDown = false then (⟨true, now⟩, none)
  else if level = true ∧ st.btnDown = true then
    (⟨false, st.btnDownTs⟩,
      some (if wsub now st.btnDownTs < 800 then Press.short else Press.long))
  else (st, none)

/-- Run the button handler over a sequence of (level, millis) samples,
collecting every classified event. -/
def buttonRun (st : BtnState) : List (Bool × Nat) → BtnState × List Press
  | [] => (st, [])
  | (lvl, now) :: rest =>
    let r := buttonStep st lvl now
    let rr := buttonRun r.1 rest
    (rr.1, (match r.2 with | none => ([] : List Press) | some e => [e]) ++ rr.2)

theorem buttonRun_down (t0 t1 : Nat) : ∀ mids : List Nat,
    buttonRun ⟨true, t0⟩ (mids.map (fun t => ((false : Bool), t)) ++ [(true, t1)]) =
      (⟨false, t0⟩, [if wsub t1 t0 < 800 then Press.short else Press.long]) := by
  intro mids
  induction mids with
  | nil => simp [buttonRun, buttonStep]
  | cons m rest ih => simp [buttonRun, buttonStep, ih]

/-- C8 (button press classification): a full press/release cycle — Down
edge at `t0`, any number of held samples, Up edge at `t1` — emits exactly
one classified event: short when the held duration is < 800 ms and long
when it is >= 800 ms; in particular 799 ms is short while 800 ms and
801 ms are long. -/
theorem button_press_classification (ts t0 t1 : Nat) (mids : List Nat) :
    (buttonRun ⟨false, ts⟩
        ((false, t0) :: (mids.map (fun t => ((false : Bool), t)) ++ [(true, t1)]))).2 =
      [if wsub t1 t0 < 800 then Press.short else Press.long] ∧
    (buttonRun ⟨false, 0⟩ [(false, 0), (true, 799)]).2 = [Press.short] ∧
    (buttonRun ⟨false, 0⟩ [(false, 0), (true, 800)]).2 = [Press.long] ∧
    (buttonRun ⟨false, 0⟩ [(false, 0), (true, 801)]).2 = [Press.long] := by
  refine ⟨?_, by decide, by decide, by decide⟩
  simp [buttonRun, buttonStep, buttonRun_down t0 t1 mids]

end EInkAware
